import Mathlib

/-!
Verification of the finance-dashboard backtest / portfolio-rebalancing core.

The development shallowly embeds the numerical kernel of the repository:

* `_simulate_equal_weight_portfolio` from `src/ui/pages_portfolio.py`
  (equal-weight portfolio with optional rebalancing),
* the drawdown computation from `scripts/generate_report.py`,
* the linear-extrapolation predictor from `src/ui/pages_single_asset.py`.

Pandas/numpy float arrays are modelled as lists of rationals; a price table
is a list of rows over `Option` entries (a `none` entry models a NaN cell).
Timestamps are abstracted to the attributes the code reads from them:
weekday and calendar month for the portfolio index, and a rational
day-count for the predictor index.
-/

namespace FinDash

/-- A timestamp, abstracted to the fields the portfolio simulator reads:
`weekday` is the pandas weekday (0 = Monday) and `ym` is the calendar
month encoded as a single integer (as produced by `to_period` with
monthly frequency: equal integers mean equal year-month). -/
structure Date where
  weekday : Nat
  ym : Int
deriving DecidableEq, Repr

/-- A price table (pandas DataFrame): a fixed column count `cols` and a
list of rows, each row a timestamp together with one optional price per
column (a `none` models a NaN cell).  Row-wise operations never change
the column count, so `cols` is carried separately, as `shape[1]` is. -/
structure PriceTable where
  cols : Nat
  rows : List (Date × List (Option ℚ))

/-- A row survives `dropna` (axis 0) when every cell is present;
the result is the list of its plain values. -/
def allSome : List (Option ℚ) → Option (List ℚ)
  | [] => some []
  | none :: _ => none
  | some q :: rest => (allSome rest).map (fun l => q :: l)

/-- `DataFrame.dropna` with row-wise `how = any`: keep exactly the rows
with no missing entry. -/
def dropnaRows (rows : List (Date × List (Option ℚ))) :
    List (Date × List (Option ℚ)) :=
  rows.filter (fun r => (allSome r.2).isSome)

/-- The plain-valued rows of a table after `dropna`. -/
def alignedRows (rows : List (Date × List (Option ℚ))) :
    List (Date × List ℚ) :=
  rows.filterMap (fun r => (allSome r.2).map (fun l => (r.1, l)))

/-- `pct_change` followed by dropping its NaN first row: consecutive-row
simple returns `cur / prev - 1`.  Over ℚ no further NaN rows can arise,
which matches tables of positive prices. -/
def pctChange : List (Date × List ℚ) → List (Date × List ℚ)
  | [] => []
  | [_] => []
  | (_, p0) :: (d1, p1) :: rest =>
      (d1, List.zipWith (fun prev cur => cur / prev - 1) p0 p1) ::
        pctChange ((d1, p1) :: rest)

/-- `_compute_returns`: align the table, then take period returns. -/
def computeReturns (rows : List (Date × List (Option ℚ))) :
    List (Date × List ℚ) :=
  pctChange (alignedRows rows)

/-- Python exceptions raised by the simulator.  Messages are the CPython
texts, with the quote characters of the AttributeError text omitted. -/
inductive PyErr where
  | valueError (msg : String)
  | indexError (msg : String)
  | attributeError (msg : String)
deriving DecidableEq, Repr

/-- `np.dot` on two equal-length vectors. -/
def dotProd (w r : List ℚ) : ℚ :=
  (List.zipWith (fun a b => a * b) w r).sum

/-- The weight-drift update after a period with per-asset returns `r`:
`w = w * (1 + r)`, then divide by the sum unless the sum is zero. -/
def driftWeights (w r : List ℚ) : List ℚ :=
  let w2 := List.zipWith (fun wi ri => wi * (1 + ri)) w r
  let s := w2.sum
  if s ≠ 0 then w2.map (fun x => x / s) else w2

/-- The main simulation loop: one step per period, where a period is a
rebalance flag together with the per-asset returns row.  Produces the
recorded equity values in order. -/
def simLoop (target : List ℚ) (value : ℚ) (w : List ℚ) :
    List (Bool × List ℚ) → List ℚ
  | [] => []
  | (rb, r) :: rest =>
      let w1 := if rb then target else w
      let pr := dotProd w1 r
      let value1 := value * (1 + pr)
      value1 :: simLoop target value1 (driftWeights w1 r) rest

/-- `reb[0] = True` on a numpy array: an IndexError on an empty array,
otherwise overwrite position 0. -/
def setFirstTrue : List Bool → Except PyErr (List Bool)
  | [] => .error (.indexError "index 0 is out of bounds for axis 0 with size 0")
  | _ :: rest => .ok (true :: rest)

/-- The rebalance-flag computation of `_simulate_equal_weight_portfolio`.
The Weekly branch mirrors `(idx.weekday == 0).to_numpy()`: comparing a
pandas Index with a scalar yields a plain numpy ndarray, which has no
`to_numpy` method, so this branch raises AttributeError before any flag
is built, whatever the index contents.  The Monthly branch mirrors
`p != p.shift(1)` where `p` is a monthly PeriodIndex:
`PeriodIndex.shift` shifts the period values (adds one month to every
entry), not the positions, so the comparison is elementwise between `p`
and `p + 1`. -/
def rebFlags (rebalancing : String) (idx : List Date) :
    Except PyErr (List Bool) :=
  if rebalancing = "None" then
    setFirstTrue (List.replicate idx.length false)
  else if rebalancing = "Weekly" then
    .error (.attributeError "numpy.ndarray object has no attribute to_numpy")
  else if rebalancing = "Monthly" then
    let p := idx.map Date.ym
    setFirstTrue (List.zipWith (fun a b => decide (¬ a = b)) p (p.map (fun m => m + 1)))
  else
    .error (.valueError "Rebalancing must be one of: None, Weekly, Monthly")

/-- `_simulate_equal_weight_portfolio` from `src/ui/pages_portfolio.py`:
drop NaN rows, require at least 3 columns, compute returns, build the
rebalance flags, then run the simulation loop from uniform weights. -/
def simulateEqualWeight (t : PriceTable) (rebalancing : String)
    (initialValue : ℚ) : Except PyErr (List ℚ) :=
  if t.cols < 3 then
    .error (.valueError "Quant B requires at least 3 assets.")
  else
    let rets := computeReturns (dropnaRows t.rows)
    let idx := rets.map Prod.fst
    let n := t.cols
    let target := List.replicate n ((1 : ℚ) / n)
    match rebFlags rebalancing idx with
    | .error e => .error e
    | .ok reb =>
        .ok (simLoop target initialValue target (reb.zip (rets.map Prod.snd)))

/-- The stored weight vector entering period `t` (before the rebalance
check of period `t`), starting from initial stored weights `w`. -/
def weightsState (target w : List ℚ) :
    List (Bool × List ℚ) → Nat → List ℚ
  | [], _ => w
  | _ :: _, 0 => w
  | (rb, r) :: rest, t + 1 =>
      weightsState target (driftWeights (if rb then target else w) r) rest t

/-- The weight vector actually used for period `t`: the stored weights,
replaced by the uniform target when period `t` is a rebalance point. -/
def weightsUsed (target w : List ℚ) :
    List (Bool × List ℚ) → Nat → List ℚ
  | [], _ => w
  | (rb, _) :: _, 0 => if rb then target else w
  | (rb, r) :: rest, t + 1 =>
      weightsUsed target (driftWeights (if rb then target else w) r) rest t

/-- The recorded equity value of period `t`. -/
def equityVal (target w : List ℚ) (v : ℚ) :
    List (Bool × List ℚ) → Nat → ℚ
  | [], _ => v
  | (rb, r) :: _, 0 => v * (1 + dotProd (if rb then target else w) r)
  | (rb, r) :: rest, t + 1 =>
      equityVal target (driftWeights (if rb then target else w) r)
        (v * (1 + dotProd (if rb then target else w) r)) rest t

theorem simLoop_length (target : List ℚ) (v : ℚ) (w : List ℚ)
    (ps : List (Bool × List ℚ)) :
    (simLoop target v w ps).length = ps.length := by
  induction ps generalizing v w with
  | nil => rfl
  | cons p rest ih =>
      obtain ⟨rb, r⟩ := p
      simp [simLoop, ih]

theorem simLoop_get? (target : List ℚ) (v : ℚ) (w : List ℚ)
    (ps : List (Bool × List ℚ)) (t : Nat) (ht : t < ps.length) :
    (simLoop target v w ps).get? t = some (equityVal target w v ps t) := by
  induction ps generalizing v w t with
  | nil => simp at ht
  | cons p rest ih =>
      obtain ⟨rb, r⟩ := p
      cases t with
      | zero => simp [simLoop, equityVal]
      | succ t =>
          simp only [simLoop, equityVal, List.get?_cons_succ]
          exact ih _ _ _ (by simpa using ht)

theorem weightsUsed_eq (target w : List ℚ) (ps : List (Bool × List ℚ))
    (t : Nat) (rb : Bool) (r : List ℚ) (h : ps.get? t = some (rb, r)) :
    weightsUsed target w ps t =
      if rb then target else weightsState target w ps t := by
  induction ps generalizing w t with
  | nil => simp at h
  | cons p rest ih =>
      obtain ⟨rb0, r0⟩ := p
      cases t with
      | zero =>
          simp only [List.get?_cons_zero, Option.some.injEq] at h
          obtain ⟨h1, h2⟩ := Prod.mk.injEq .. ▸ h
          subst h1
          simp [weightsUsed, weightsState]
      | succ t =>
          simp only [List.get?_cons_succ] at h
          simpa [weightsUsed, weightsState] using ih _ _ h

theorem equityVal_succ (target : List ℚ) (ps : List (Bool × List ℚ))
    (w : List ℚ) (v : ℚ) (t : Nat) (rb : Bool) (r : List ℚ)
    (h : ps.get? (t + 1) = some (rb, r)) :
    equityVal target w v ps (t + 1) =
      equityVal target w v ps t *
        (1 + dotProd (weightsUsed target w ps (t + 1)) r) := by
  induction ps generalizing w v t with
  | nil => simp at h
  | cons p rest ih =>
      obtain ⟨rb0, r0⟩ := p
      cases t with
      | zero =>
          simp only [List.get?_cons_succ] at h
          cases rest with
          | nil => simp at h
          | cons q rest2 =>
              obtain ⟨rb1, r1⟩ := q
              simp only [List.get?_cons_zero, Option.some.injEq] at h
              obtain ⟨h1, h2⟩ := Prod.mk.injEq .. ▸ h
              subst h2
              simp [equityVal, weightsUsed]
      | succ t =>
          simp only [List.get?_cons_succ] at h
          simpa [equityVal, weightsUsed] using ih _ _ _ h

/-- Running maximum from a starting value (tail worker of `cummax`). -/
def cummaxAux (m : ℚ) : List ℚ → List ℚ
  | [] => []
  | x :: xs => max m x :: cummaxAux (max m x) xs

/-- `Series.cummax`: the running maximum of a series. -/
def cummax : List ℚ → List ℚ
  | [] => []
  | x :: xs => x :: cummaxAux x xs

/-- The minimum of a series, with the degenerate empty case mapped to 0
(the fallback value the spec assigns to degenerate inputs). -/
def listMin : List ℚ → ℚ
  | [] => 0
  | x :: xs => xs.foldl min x

/-- The drawdown series of an equity curve:
`(equity - running_max) / running_max` pointwise. -/
def drawdownSeries (equity : List ℚ) : List ℚ :=
  List.zipWith (fun e m => (e - m) / m) equity (cummax equity)

/-- Modelled from the spec: `max_drawdown` of `src/analytics/metrics.py`
is imported by both UI pages but the module itself is not present under
`src/`; section 4.4 of the spec defines it as the minimum of the
drawdown series of the equity curve, expressed as a fraction. -/
def max_drawdown (equity : List ℚ) : ℚ :=
  listMin (drawdownSeries equity)

/-- `(1 + returns).cumprod()` (tail worker). -/
def cumprodAux (acc : ℚ) : List ℚ → List ℚ
  | [] => []
  | r :: rs => acc * (1 + r) :: cumprodAux (acc * (1 + r)) rs

/-- `(1 + returns).cumprod()`: the cumulative-value curve implied by a
return series, starting from 1. -/
def cumprodOnePlus (returns : List ℚ) : List ℚ :=
  cumprodAux 1 returns

/-- The inline max-drawdown computation of `collect_daily_data` in
`scripts/generate_report.py`: build the cumulative curve from returns,
take its drawdown series, and report the minimum times 100. -/
def reportMaxDrawdown (returns : List ℚ) : ℚ :=
  let cumulative := cumprodOnePlus returns
  let runningMax := cummax cumulative
  let drawdown := List.zipWith (fun c m => (c - m) / m) cumulative runningMax
  listMin drawdown * 100

/-- `np.arange(n)` as a list of rationals. -/
def arangeQ (n : Nat) : List ℚ :=
  (List.range n).map Nat.cast

/-- `np.polyfit(x, y, 1)` for `x = 0 .. y.length - 1`, embedded as the
closed-form normal-equation solution of the degree-1 least-squares
problem; returns the pair (slope, intercept). -/
def olsFit (y : List ℚ) : ℚ × ℚ :=
  let n : ℚ := y.length
  let xs : List ℚ := arangeQ y.length
  let sx := xs.sum
  let sy := y.sum
  let sxx := (xs.map (fun x => x * x)).sum
  let sxy := (List.zipWith (fun a b => a * b) xs y).sum
  let d := n * sxx - sx * sx
  ((n * sxy - sx * sy) / d, (sy * sxx - sx * sxy) / d)

/-- The prediction block of `render_single_asset_page` in
`src/ui/pages_single_asset.py`: timestamps carried as rational
day-counts.  When the series has at least `window` points, fit a line
to the last `window` prices against integer positions, then emit
`horizon` extrapolated points; the prediction index is built with
`pd.date_range(last + 1 day, periods = horizon, freq = D)`, hence is
spaced one day apart whatever the input granularity.  Otherwise the
prediction is reported unavailable (`none`), without raising. -/
def predictLinear (s : List (ℚ × ℚ)) (horizon window : Nat) :
    Option (List (ℚ × ℚ)) :=
  if window ≤ s.length then
    let y := (s.map Prod.snd).drop (s.length - window)
    let ab := olsFit y
    let lastTs := ((s.map Prod.fst).getLast?).getD 0
    some ((List.range horizon).map (fun k : Nat =>
      (lastTs + ((k : ℚ) + 1), ab.1 * ((y.length : ℚ) + (k : ℚ)) + ab.2)))
  else
    none

/-- The sum of squared residuals of the line `a * x + b` against the
points `(i, y i)` for `i = 0 .. y.length - 1`. -/
def sse (y : List ℚ) (a b : ℚ) : ℚ :=
  (List.zipWith (fun x yv => (yv - (a * x + b)) * (yv - (a * x + b)))
    (arangeQ y.length) y).sum

/-- The rebalance points the spec prescribes for Monthly mode, stated
from the spec wording for comparison with `rebFlags`: the first period,
and every period whose calendar month differs from the month of the
previous period. -/
def specMonthlyRebalancePoints (idx : List Date) : List Bool :=
  (List.range idx.length).map (fun t =>
    match t with
    | 0 => true
    | t0 + 1 =>
        decide (¬ ((idx.getD (t0 + 1) ⟨0, 0⟩).ym = (idx.getD t0 ⟨0, 0⟩).ym)))

theorem dropnaRows_idem (rows : List (Date × List (Option ℚ))) :
    dropnaRows (dropnaRows rows) = dropnaRows rows := by
  simp [dropnaRows, List.filter_filter]

theorem alignedRows_length (rows : List (Date × List (Option ℚ))) :
    (alignedRows rows).length = (dropnaRows rows).length := by
  induction rows with
  | nil => rfl
  | cons r rest ih =>
      cases h : allSome r.2 with
      | none => simpa [alignedRows, dropnaRows, h, List.filter_cons] using ih
      | some l => simpa [alignedRows, dropnaRows, h, List.filter_cons] using ih

theorem pctChange_length :
    ∀ l : List (Date × List ℚ), (pctChange l).length = l.length - 1
  | [] => rfl
  | [_] => rfl
  | (d0, p0) :: (d1, p1) :: rest => by
      have ih := pctChange_length ((d1, p1) :: rest)
      simp [pctChange] at ih ⊢
      omega

theorem setFirstTrue_error (l : List Bool) (e : PyErr)
    (h : setFirstTrue l = .error e) :
    e = .indexError "index 0 is out of bounds for axis 0 with size 0" := by
  cases l with
  | nil =>
      simp only [setFirstTrue, Except.error.injEq] at h
      exact h.symm
  | cons b rest => simp [setFirstTrue] at h

theorem rebFlags_error (mode : String) (idx : List Date) (e : PyErr)
    (h : rebFlags mode idx = .error e) :
    e = .indexError "index 0 is out of bounds for axis 0 with size 0" ∨
    e = .attributeError "numpy.ndarray object has no attribute to_numpy" ∨
    e = .valueError "Rebalancing must be one of: None, Weekly, Monthly" := by
  unfold rebFlags at h
  split at h
  · exact Or.inl (setFirstTrue_error _ _ h)
  · split at h
    · simp only [Except.error.injEq] at h
      exact Or.inr (Or.inl h.symm)
    · split at h
      · exact Or.inl (setFirstTrue_error _ _ h)
      · simp only [Except.error.injEq] at h
        exact Or.inr (Or.inr h.symm)

theorem rebFlags_ok (mode : String)
    (hm : mode = "None" ∨ mode = "Monthly")
    (idx : List Date) (h : idx ≠ []) :
    ∃ flags, rebFlags mode idx = .ok flags ∧ flags.length = idx.length := by
  have hsf : ∀ l : List Bool, l.length = idx.length → ∃ f,
      setFirstTrue l = .ok f ∧ f.length = idx.length := by
    intro l hl
    cases l with
    | nil =>
        exfalso
        apply h
        have : idx.length = 0 := by simpa using hl.symm
        exact List.length_eq_zero.mp this
    | cons b rest => exact ⟨true :: rest, rfl, by simpa using hl⟩
  rcases hm with h1 | h1 <;> subst h1
  · rw [rebFlags, if_pos rfl]
    exact hsf _ (by simp)
  · rw [rebFlags, if_neg (by decide), if_neg (by decide), if_pos rfl]
    exact hsf _ (by simp)

theorem zip_get?_of_get? {α β : Type} (a : List α) (b : List β) (i : Nat)
    (x : α) (y : β) (ha : a.get? i = some x) (hb : b.get? i = some y) :
    (a.zip b).get? i = some (x, y) := by
  induction a generalizing b i with
  | nil => simp at ha
  | cons a0 arest ih =>
      cases b with
      | nil => simp at hb
      | cons b0 brest =>
          cases i with
          | zero =>
              simp only [List.get?_cons_zero, Option.some.injEq] at ha hb
              simp [List.zip_cons_cons, ha, hb]
          | succ i =>
              simp only [List.get?_cons_succ] at ha hb
              simpa [List.zip_cons_cons] using ih brest i ha hb

theorem get?_of_zip_get? {α β : Type} (a : List α) (b : List β) (i : Nat)
    (x : α) (y : β) (h : (a.zip b).get? i = some (x, y)) :
    a.get? i = some x ∧ b.get? i = some y := by
  induction a generalizing b i with
  | nil => simp [List.zip] at h
  | cons a0 arest ih =>
      cases b with
      | nil => simp [List.zip] at h
      | cons b0 brest =>
          cases i with
          | zero =>
              simp only [List.zip_cons_cons, List.get?_cons_zero,
                Option.some.injEq] at h
              obtain ⟨h1, h2⟩ := Prod.mk.injEq .. ▸ h
              simp [h1, h2]
          | succ i =>
              simp only [List.zip_cons_cons, List.get?_cons_succ] at h
              simpa using ih brest i h

theorem monthly_flags_all_true (p : List Int) :
    List.zipWith (fun a b => decide (¬ a = b)) p (p.map (fun m => m + 1)) =
      List.replicate p.length true := by
  induction p with
  | nil => rfl
  | cons a rest ih =>
      simp only [List.map_cons, List.zipWith_cons_cons, ih,
        List.length_cons, List.replicate_succ, List.cons.injEq]
      simp only [decide_eq_true_eq, and_true]
      omega

theorem weightsState_zero (target w : List ℚ) (ps : List (Bool × List ℚ)) :
    weightsState target w ps 0 = w := by
  cases ps <;> rfl

theorem weightsUsed_zero (target w : List ℚ) (ps : List (Bool × List ℚ))
    (rb : Bool) (r : List ℚ) (h : ps.get? 0 = some (rb, r)) :
    weightsUsed target w ps 0 = if rb then target else w := by
  cases ps with
  | nil => simp at h
  | cons p tail =>
      obtain ⟨rb0, r0⟩ := p
      simp only [List.get?_cons_zero, Option.some.injEq] at h
      obtain ⟨h1, h2⟩ := Prod.mk.injEq .. ▸ h
      subst h1
      rfl

theorem equityVal_zero (target w : List ℚ) (v : ℚ)
    (ps : List (Bool × List ℚ)) (rb : Bool) (r : List ℚ)
    (h : ps.get? 0 = some (rb, r)) :
    equityVal target w v ps 0 =
      v * (1 + dotProd (if rb then target else w) r) := by
  cases ps with
  | nil => simp at h
  | cons p tail =>
      obtain ⟨rb0, r0⟩ := p
      simp only [List.get?_cons_zero, Option.some.injEq] at h
      obtain ⟨h1, h2⟩ := Prod.mk.injEq .. ▸ h
      subst h1
      subst h2
      rfl

theorem getD_replicate_false (n t : Nat) :
    (List.replicate n false).getD t false = false := by
  induction n generalizing t with
  | zero => simp [List.getD]
  | succ n ih =>
      cases t with
      | zero => simp [List.replicate_succ]
      | succ t =>
          rw [List.replicate_succ]
          exact ih t

/-- Claim C2: a table whose width is below three columns makes the
simulator fail with the dedicated ValueError and produce no equity
curve, and a table with three or more columns never produces that
error. -/
theorem claim_C2 (t : PriceTable) (mode : String) (v0 : ℚ) :
    (t.cols < 3 → simulateEqualWeight t mode v0 =
      .error (.valueError "Quant B requires at least 3 assets.")) ∧
    (3 ≤ t.cols → simulateEqualWeight t mode v0 ≠
      .error (.valueError "Quant B requires at least 3 assets.")) := by
  constructor
  · intro h
    simp [simulateEqualWeight, h]
  · intro h hc
    simp only [simulateEqualWeight, if_neg (show ¬ t.cols < 3 by omega)] at hc
    cases hreb : rebFlags mode ((computeReturns (dropnaRows t.rows)).map Prod.fst) with
    | error e =>
        rw [hreb] at hc
        simp only [Except.error.injEq] at hc
        rcases rebFlags_error _ _ _ hreb with h1 | h1 | h1 <;> rw [h1] at hc
        · exact absurd hc (by decide)
        · exact absurd hc (by decide)
        · exact absurd hc (by decide)
    | ok reb =>
        rw [hreb] at hc
        simp at hc

theorem claim_C2_witness :
    ((⟨2, []⟩ : PriceTable).cols < 3 ∧
      simulateEqualWeight ⟨2, []⟩ "Monthly" 1 =
        .error (.valueError "Quant B requires at least 3 assets.")) ∧
    (3 ≤ (⟨3, []⟩ : PriceTable).cols ∧
      simulateEqualWeight ⟨3, []⟩ "Monthly" 1 ≠
        .error (.valueError "Quant B requires at least 3 assets.")) :=
  ⟨⟨by decide, (claim_C2 ⟨2, []⟩ "Monthly" 1).1 (by decide)⟩,
   ⟨by decide, (claim_C2 ⟨3, []⟩ "Monthly" 1).2 (by decide)⟩⟩

/-- Claim C7: a rebalancing argument outside None, Weekly, Monthly is
rejected: the simulator never returns an equity curve for it, and on a
table passing the asset check the result is exactly the dedicated
ValueError.  Evaluation order inside the pure function is not
observable; the rejection is total. -/
theorem claim_C7 (t : PriceTable) (mode : String) (v0 : ℚ)
    (h1 : mode ≠ "None") (h2 : mode ≠ "Weekly") (h3 : mode ≠ "Monthly") :
    (∀ eq : List ℚ, simulateEqualWeight t mode v0 ≠ .ok eq) ∧
    (3 ≤ t.cols → simulateEqualWeight t mode v0 =
      .error (.valueError "Rebalancing must be one of: None, Weekly, Monthly")) := by
  have hreb : ∀ idx, rebFlags mode idx =
      .error (.valueError "Rebalancing must be one of: None, Weekly, Monthly") := by
    intro idx
    rw [rebFlags, if_neg h1, if_neg h2, if_neg h3]
  constructor
  · intro eq hc
    by_cases h : t.cols < 3
    · simp [simulateEqualWeight, h] at hc
    · simp [simulateEqualWeight, if_neg h, hreb] at hc
  · intro h
    simp [simulateEqualWeight, if_neg (show ¬ t.cols < 3 by omega), hreb]

theorem claim_C7_witness :
    (("Quarterly" : String) ≠ "None" ∧ ("Quarterly" : String) ≠ "Weekly" ∧
      ("Quarterly" : String) ≠ "Monthly" ∧ 3 ≤ (⟨3, []⟩ : PriceTable).cols) ∧
    ((∀ eq : List ℚ, simulateEqualWeight ⟨3, []⟩ "Quarterly" 1 ≠ .ok eq) ∧
      simulateEqualWeight ⟨3, []⟩ "Quarterly" 1 =
        .error (.valueError "Rebalancing must be one of: None, Weekly, Monthly")) :=
  ⟨⟨by decide, by decide, by decide, by decide⟩,
   ⟨(claim_C7 ⟨3, []⟩ "Quarterly" 1 (by decide) (by decide) (by decide)).1,
    (claim_C7 ⟨3, []⟩ "Quarterly" 1 (by decide) (by decide) (by decide)).2 (by decide)⟩⟩

/-- Claim C10 counterexample: a table with three columns but a single
aligned row does not return an empty equity series; setting the first
rebalance flag on the empty flag array raises an IndexError. -/
theorem claim_C10_counterexample :
    simulateEqualWeight ⟨3, [(⟨0, 24288⟩, [some 100, some 50, some 20])]⟩
        "Monthly" 1 =
      .error (.indexError "index 0 is out of bounds for axis 0 with size 0") := by
  rfl

/-- Claim C10 (amended): with at least three columns but fewer than two
aligned rows the simulator never returns an equity series, empty or
otherwise: in None and Monthly modes the empty returns index makes
`reb[0] = True` raise the numpy IndexError, and in Weekly mode the
AttributeError from `(idx.weekday == 0).to_numpy()` is raised even
earlier. -/
theorem claim_C10_amended (t : PriceTable) (mode : String) (v0 : ℚ)
    (hc : 3 ≤ t.cols) (hr : (dropnaRows t.rows).length < 2) :
    ((mode = "None" ∨ mode = "Monthly") →
      simulateEqualWeight t mode v0 =
        .error (.indexError "index 0 is out of bounds for axis 0 with size 0")) ∧
    (mode = "Weekly" →
      simulateEqualWeight t mode v0 =
        .error (.attributeError
          "numpy.ndarray object has no attribute to_numpy")) := by
  have hrets : computeReturns (dropnaRows t.rows) = [] := by
    apply List.length_eq_zero.mp
    show (pctChange (alignedRows (dropnaRows t.rows))).length = 0
    rw [pctChange_length, alignedRows_length, dropnaRows_idem]
    omega
  constructor
  · intro hm
    have hflags : rebFlags mode
        ((computeReturns (dropnaRows t.rows)).map Prod.fst) =
        .error (.indexError
          "index 0 is out of bounds for axis 0 with size 0") := by
      rw [hrets]
      rcases hm with h | h <;> subst h <;> rfl
    simp [simulateEqualWeight, if_neg (show ¬ t.cols < 3 by omega), hflags]
  · intro hm
    subst hm
    have hflags : rebFlags "Weekly"
        ((computeReturns (dropnaRows t.rows)).map Prod.fst) =
        .error (.attributeError
          "numpy.ndarray object has no attribute to_numpy") := by
      rw [rebFlags, if_neg (by decide), if_pos rfl]
    simp [simulateEqualWeight, if_neg (show ¬ t.cols < 3 by omega), hflags]

theorem claim_C10_witness :
    (3 ≤ (⟨4, [(⟨2, 5⟩, [some 1, none, some 2, some 3])]⟩ : PriceTable).cols ∧
     (dropnaRows (⟨4, [(⟨2, 5⟩, [some 1, none, some 2, some 3])]⟩ :
       PriceTable).rows).length < 2 ∧
     simulateEqualWeight ⟨4, [(⟨2, 5⟩, [some 1, none, some 2, some 3])]⟩
         "None" 1 =
       .error (.indexError "index 0 is out of bounds for axis 0 with size 0")) ∧
    simulateEqualWeight ⟨4, [(⟨2, 5⟩, [some 1, none, some 2, some 3])]⟩
        "Weekly" 1 =
      .error (.attributeError "numpy.ndarray object has no attribute to_numpy") :=
  ⟨⟨by decide, by decide,
    (claim_C10_amended ⟨4, [(⟨2, 5⟩, [some 1, none, some 2, some 3])]⟩
      "None" 1 (by decide) (by decide)).1 (Or.inl rfl)⟩,
   (claim_C10_amended ⟨4, [(⟨2, 5⟩, [some 1, none, some 2, some 3])]⟩
      "Weekly" 1 (by decide) (by decide)).2 rfl⟩

/-- Claim C1: in Monthly mode the code marks every period as a
rebalance point (because `p != p.shift(1)` compares each monthly period
with itself plus one month, `PeriodIndex.shift` acting on values),
whereas the documented rule marks only the first period and month
changes: at three consecutive same-month periods the code resets
weights three times, the documented rule once. -/
theorem claim_C1 :
    (∀ idx : List Date, idx ≠ [] →
      rebFlags "Monthly" idx = .ok (List.replicate idx.length true)) ∧
    specMonthlyRebalancePoints [⟨1, 24288⟩, ⟨2, 24288⟩, ⟨3, 24288⟩] =
      [true, false, false] := by
  constructor
  · intro idx h
    rw [rebFlags, if_neg (by decide), if_neg (by decide), if_pos rfl]
    simp only [monthly_flags_all_true, List.length_map]
    cases idx with
    | nil => simp at h
    | cons d rest => simp [setFirstTrue, List.replicate_succ]
  · rfl

theorem claim_C1_witness :
    ([(⟨1, 24288⟩ : Date), ⟨2, 24288⟩, ⟨3, 24288⟩] ≠ []) ∧
    rebFlags "Monthly" [⟨1, 24288⟩, ⟨2, 24288⟩, ⟨3, 24288⟩] =
      .ok (List.replicate 3 true) :=
  ⟨by decide, claim_C1.1 [⟨1, 24288⟩, ⟨2, 24288⟩, ⟨3, 24288⟩] (by decide)⟩

/-- Claim C3: entering the next period, the stored weight vector equals
the weights used for the current period multiplied elementwise by one
plus the per-asset returns, renormalized by the sum, except that when
the post-multiplication sum is exactly zero the renormalization is
skipped and the multiplied values are kept. -/
theorem claim_C3 (target w : List ℚ) (ps : List (Bool × List ℚ))
    (t : Nat) (rb : Bool) (r : List ℚ) (h : ps.get? t = some (rb, r)) :
    weightsState target w ps (t + 1) =
      (fun w2 : List ℚ =>
        if w2.sum = 0 then w2 else w2.map (fun x => x / w2.sum))
      (List.zipWith (fun wi ri => wi * (1 + ri))
        (weightsUsed target w ps t) r) := by
  induction ps generalizing w t with
  | nil => simp at h
  | cons p rest ih =>
      obtain ⟨rb0, r0⟩ := p
      cases t with
      | zero =>
          simp only [List.get?_cons_zero, Option.some.injEq] at h
          obtain ⟨h1, h2⟩ := Prod.mk.injEq .. ▸ h
          subst h1
          subst h2
          have hst : weightsState target w ((rb0, r0) :: rest) 1 =
              driftWeights (if rb0 then target else w) r0 := by
            show weightsState target
              (driftWeights (if rb0 then target else w) r0) rest 0 = _
            exact weightsState_zero _ _ _
          rw [hst]
          show driftWeights (if rb0 then target else w) r0 = _
          by_cases hs : (List.zipWith (fun wi ri => wi * (1 + ri))
              (if rb0 then target else w) r0).sum = 0
          · simp [driftWeights, weightsUsed, hs]
          · simp [driftWeights, weightsUsed, hs]
      | succ t =>
          simp only [List.get?_cons_succ] at h
          simpa only [weightsState, weightsUsed] using ih _ _ h

theorem claim_C3_witness :
    ([((false : Bool), [(1 : ℚ), -1])].get? 0 = some (false, [(1 : ℚ), -1])) ∧
    weightsState [(1 : ℚ)/2, 1/2] [(1 : ℚ)/2, 1/2]
        [(false, [(1 : ℚ), -1])] 1 =
      (fun w2 : List ℚ =>
        if w2.sum = 0 then w2 else w2.map (fun x => x / w2.sum))
      (List.zipWith (fun wi ri => wi * (1 + ri))
        (weightsUsed [(1 : ℚ)/2, 1/2] [(1 : ℚ)/2, 1/2]
          [(false, [(1 : ℚ), -1])] 0) [(1 : ℚ), -1]) :=
  ⟨rfl, claim_C3 _ _ _ _ _ _ rfl⟩

/-- Claim C5: the None half holds: the rebalance flag is set exactly at
the first period, and the simulator resets the weights to the uniform
target exactly at flagged periods, keeping the drifted stored weights
otherwise.  The Weekly half is contradicted by the code: line 41
evaluates `(idx.weekday == 0).to_numpy()`, and the Index-scalar
comparison yields a plain numpy ndarray with no `to_numpy` method, so
Weekly mode raises AttributeError before any flag is built and never
returns an equity curve, instead of rebalancing on Mondays as the
docstring of the function states. -/
theorem claim_C5 (idx : List Date) (h : idx ≠ []) :
    (∃ f, rebFlags "None" idx = .ok f ∧ f.length = idx.length ∧
      ∀ t, t < idx.length → (f.getD t false = true ↔ t = 0)) ∧
    rebFlags "Weekly" idx = .error (.attributeError
      "numpy.ndarray object has no attribute to_numpy") ∧
    (∀ (tbl : PriceTable) (v0 : ℚ) (eq : List ℚ),
      simulateEqualWeight tbl "Weekly" v0 ≠ .ok eq) ∧
    (∀ (target w : List ℚ) (ps : List (Bool × List ℚ)) (t : Nat)
      (rb : Bool) (r : List ℚ), ps.get? t = some (rb, r) →
      weightsUsed target w ps t =
        if rb then target else weightsState target w ps t) := by
  have hweekly : ∀ idx2 : List Date, rebFlags "Weekly" idx2 =
      .error (.attributeError
        "numpy.ndarray object has no attribute to_numpy") := by
    intro idx2
    rw [rebFlags, if_neg (by decide), if_pos rfl]
  have hnever : ∀ (tbl : PriceTable) (v0 : ℚ) (eq : List ℚ),
      simulateEqualWeight tbl "Weekly" v0 ≠ .ok eq := by
    intro tbl v0 eq hc
    by_cases hlt : tbl.cols < 3
    · simp [simulateEqualWeight, hlt] at hc
    · simp [simulateEqualWeight, if_neg hlt, hweekly] at hc
  cases idx with
  | nil => exact absurd rfl h
  | cons d rest =>
      refine ⟨⟨true :: List.replicate rest.length false, ?_, by simp, ?_⟩,
        hweekly _, hnever,
        fun target w ps t rb r hp => weightsUsed_eq target w ps t rb r hp⟩
      · rw [rebFlags, if_pos rfl]
        simp [List.replicate_succ, setFirstTrue]
      · intro t ht
        cases t with
        | zero => simp
        | succ t =>
            have : (List.replicate rest.length false).getD t false = false :=
              getD_replicate_false rest.length t
            simp [this]

theorem claim_C5_witness :
    ([(⟨0, 0⟩ : Date), ⟨3, 0⟩, ⟨0, 0⟩] ≠ []) ∧
    ((∃ f, rebFlags "None" [(⟨0, 0⟩ : Date), ⟨3, 0⟩, ⟨0, 0⟩] = .ok f ∧
      f.length = [(⟨0, 0⟩ : Date), ⟨3, 0⟩, ⟨0, 0⟩].length ∧
      ∀ t, t < [(⟨0, 0⟩ : Date), ⟨3, 0⟩, ⟨0, 0⟩].length →
        (f.getD t false = true ↔ t = 0)) ∧
    rebFlags "Weekly" [(⟨0, 0⟩ : Date), ⟨3, 0⟩, ⟨0, 0⟩] =
      .error (.attributeError
        "numpy.ndarray object has no attribute to_numpy") ∧
    (∀ (tbl : PriceTable) (v0 : ℚ) (eq : List ℚ),
      simulateEqualWeight tbl "Weekly" v0 ≠ .ok eq) ∧
    (∀ (target w : List ℚ) (ps : List (Bool × List ℚ)) (t : Nat)
      (rb : Bool) (r : List ℚ), ps.get? t = some (rb, r) →
      weightsUsed target w ps t =
        if rb then target else weightsState target w ps t)) :=
  ⟨by decide, claim_C5 [⟨0, 0⟩, ⟨3, 0⟩, ⟨0, 0⟩] (by decide)⟩

/-- Claim C4: on a valid input (three or more columns, at least two
aligned rows, a mode that produces output) the simulator returns an
equity series one element shorter than the aligned price index, and
each entry equals the previous value (the initial value at period 0)
times one plus the dot-product of the weights used for the period with
the per-asset returns of the period.  The modes covered are None and
Monthly, the only ones that return a series: Weekly raises
AttributeError before any computation (see C5), so no returned series
exists there. -/
theorem claim_C4 (t : PriceTable) (mode : String) (v0 : ℚ)
    (hm : mode = "None" ∨ mode = "Monthly")
    (hc : 3 ≤ t.cols) (hr : 2 ≤ (dropnaRows t.rows).length) :
    ∃ flags eq,
      rebFlags mode ((computeReturns (dropnaRows t.rows)).map Prod.fst) =
        .ok flags ∧
      simulateEqualWeight t mode v0 = .ok eq ∧
      eq.length + 1 = (dropnaRows t.rows).length ∧
      ∀ i, i < eq.length →
        eq.get? i = some ((if i = 0 then v0 else eq.getD (i - 1) 0) *
          (1 + dotProd
            (weightsUsed (List.replicate t.cols ((1 : ℚ) / t.cols))
              (List.replicate t.cols ((1 : ℚ) / t.cols))
              (flags.zip ((computeReturns (dropnaRows t.rows)).map Prod.snd)) i)
            (((computeReturns (dropnaRows t.rows)).map Prod.snd).getD i []))) := by
  have hlen : (computeReturns (dropnaRows t.rows)).length + 1 =
      (dropnaRows t.rows).length := by
    show (pctChange (alignedRows (dropnaRows t.rows))).length + 1 = _
    rw [pctChange_length, alignedRows_length, dropnaRows_idem]
    omega
  have hne : (computeReturns (dropnaRows t.rows)).map Prod.fst ≠ [] := by
    intro hcon
    have h2 := congrArg List.length hcon
    simp only [List.length_map, List.length_nil] at h2
    omega
  obtain ⟨flags, hfl, hflen⟩ := rebFlags_ok mode hm _ hne
  have hflen2 : flags.length = (computeReturns (dropnaRows t.rows)).length := by
    simpa using hflen
  refine ⟨flags, simLoop (List.replicate t.cols ((1 : ℚ) / t.cols)) v0
    (List.replicate t.cols ((1 : ℚ) / t.cols))
    (flags.zip ((computeReturns (dropnaRows t.rows)).map Prod.snd)),
    hfl, ?_, ?_, ?_⟩
  · simp only [simulateEqualWeight, if_neg (show ¬ t.cols < 3 by omega), hfl]
  · rw [simLoop_length]
    rw [List.length_zip, hflen2, List.length_map, min_self]
    omega
  · intro i hi
    rw [simLoop_length, List.length_zip, hflen2, List.length_map,
      min_self] at hi
    have hpslen : (flags.zip
        ((computeReturns (dropnaRows t.rows)).map Prod.snd)).length =
        (computeReturns (dropnaRows t.rows)).length := by
      rw [List.length_zip, hflen2, List.length_map, min_self]
    have hb : flags.get? i = some (flags.get ⟨i, by omega⟩) :=
      List.get?_eq_get (by omega)
    have hrlen : i < ((computeReturns (dropnaRows t.rows)).map Prod.snd).length := by
      rw [List.length_map]
      omega
    have hrr : ((computeReturns (dropnaRows t.rows)).map Prod.snd).get? i =
        some (((computeReturns (dropnaRows t.rows)).map Prod.snd).get
          ⟨i, hrlen⟩) := List.get?_eq_get hrlen
    have hpsi : (flags.zip
        ((computeReturns (dropnaRows t.rows)).map Prod.snd)).get? i =
        some (flags.get ⟨i, by omega⟩,
          ((computeReturns (dropnaRows t.rows)).map Prod.snd).get ⟨i, hrlen⟩) :=
      zip_get?_of_get? _ _ _ _ _ hb hrr
    have hgetDr : ((computeReturns (dropnaRows t.rows)).map Prod.snd).getD i [] =
        ((computeReturns (dropnaRows t.rows)).map Prod.snd).get ⟨i, hrlen⟩ := by
      rw [List.getD, hrr]
      rfl
    rw [simLoop_get? _ _ _ _ _ (by omega), hgetDr]
    cases i with
    | zero =>
        rw [equityVal_zero _ _ _ _ _ _ hpsi,
          weightsUsed_zero _ _ _ _ _ hpsi]
        simp
    | succ i =>
        have hpsi2 : (flags.zip
            ((computeReturns (dropnaRows t.rows)).map Prod.snd)).get?
            i = some (flags.get ⟨i, by omega⟩,
              ((computeReturns (dropnaRows t.rows)).map Prod.snd).get
                ⟨i, by rw [List.length_map]; omega⟩) :=
          zip_get?_of_get? _ _ _ _ _ (List.get?_eq_get (by omega))
            (List.get?_eq_get (by rw [List.length_map]; omega))
        have hprev : (simLoop (List.replicate t.cols ((1 : ℚ) / t.cols)) v0
            (List.replicate t.cols ((1 : ℚ) / t.cols))
            (flags.zip ((computeReturns (dropnaRows t.rows)).map
              Prod.snd))).getD i 0 =
            equityVal (List.replicate t.cols ((1 : ℚ) / t.cols))
              (List.replicate t.cols ((1 : ℚ) / t.cols)) v0
              (flags.zip ((computeReturns (dropnaRows t.rows)).map
                Prod.snd)) i := by
          rw [List.getD, simLoop_get? _ _ _ _ _ (by omega)]
          rfl
        rw [equityVal_succ _ _ _ _ _ _ _ hpsi]
        rw [if_neg (Nat.succ_ne_zero i)]
        simp only [Nat.add_sub_cancel]
        rw [hprev]

/-- A small three-asset, three-row table used to instantiate theorems
on concrete data. -/
def witnessTable : PriceTable :=
  ⟨3, [ (⟨0, 1⟩, [some 100, some 50, some 20]),
        (⟨1, 1⟩, [some 101, some 51, some 21]),
        (⟨2, 1⟩, [some 102, some 49, some 22]) ]⟩

theorem claim_C4_witness :
    (("Monthly" : String) = "None" ∨ ("Monthly" : String) = "Monthly") ∧
    3 ≤ witnessTable.cols ∧ 2 ≤ (dropnaRows witnessTable.rows).length ∧
    (∃ flags eq,
      rebFlags "Monthly"
        ((computeReturns (dropnaRows witnessTable.rows)).map Prod.fst) =
        .ok flags ∧
      simulateEqualWeight witnessTable "Monthly" 1 = .ok eq ∧
      eq.length + 1 = (dropnaRows witnessTable.rows).length ∧
      ∀ i, i < eq.length →
        eq.get? i = some ((if i = 0 then 1 else eq.getD (i - 1) 0) *
          (1 + dotProd
            (weightsUsed
              (List.replicate witnessTable.cols ((1 : ℚ) / witnessTable.cols))
              (List.replicate witnessTable.cols ((1 : ℚ) / witnessTable.cols))
              (flags.zip ((computeReturns
                (dropnaRows witnessTable.rows)).map Prod.snd)) i)
            (((computeReturns
              (dropnaRows witnessTable.rows)).map Prod.snd).getD i [])))) :=
  ⟨Or.inr rfl, by decide, by decide,
    claim_C4 witnessTable "Monthly" 1 (Or.inr rfl)
      (by decide) (by decide)⟩

theorem foldl_min_le_init (l : List ℚ) (a : ℚ) : l.foldl min a ≤ a := by
  induction l generalizing a with
  | nil => exact le_refl a
  | cons b rest ih =>
      calc (b :: rest).foldl min a = rest.foldl min (min a b) := rfl
        _ ≤ min a b := ih _
        _ ≤ a := min_le_left _ _

theorem foldl_min_le_mem (l : List ℚ) (a x : ℚ) (hx : x ∈ l) :
    l.foldl min a ≤ x := by
  induction l generalizing a with
  | nil => simp at hx
  | cons b rest ih =>
      rcases List.mem_cons.mp hx with h | h
      · subst h
        calc (x :: rest).foldl min a = rest.foldl min (min a x) := rfl
          _ ≤ min a x := foldl_min_le_init _ _
          _ ≤ x := min_le_right _ _
      · exact ih _ h

theorem foldl_min_mem (l : List ℚ) (a : ℚ) :
    l.foldl min a = a ∨ l.foldl min a ∈ l := by
  induction l generalizing a with
  | nil => exact Or.inl rfl
  | cons b rest ih =>
      rcases ih (min a b) with h | h
      · rcases min_choice a b with hm | hm
        · exact Or.inl (by rw [List.foldl_cons, h, hm])
        · exact Or.inr (by rw [List.foldl_cons, h, hm]; exact List.mem_cons_self _ _)
      · exact Or.inr (List.mem_cons_of_mem _ h)

theorem listMin_le (l : List ℚ) (x : ℚ) (hx : x ∈ l) : listMin l ≤ x := by
  cases l with
  | nil => simp at hx
  | cons b rest =>
      rcases List.mem_cons.mp hx with h | h
      · subst h
        exact foldl_min_le_init rest x
      · exact foldl_min_le_mem rest b x h

theorem listMin_mem (l : List ℚ) (h : l ≠ []) : listMin l ∈ l := by
  cases l with
  | nil => exact absurd rfl h
  | cons b rest =>
      rcases foldl_min_mem rest b with h1 | h1
      · rw [listMin, h1]
        exact List.mem_cons_self _ _
      · exact List.mem_cons_of_mem _ h1

theorem listMin_of_all_zero (l : List ℚ) (h : ∀ x ∈ l, x = 0) :
    listMin l = 0 := by
  cases l with
  | nil => rfl
  | cons b rest =>
      exact h _ (listMin_mem (b :: rest) (List.cons_ne_nil _ _))

theorem drawdown_aux_nonpos (xs : List ℚ) :
    ∀ m : ℚ, (∀ x ∈ xs, 0 < x) → 0 < m →
    ∀ d ∈ List.zipWith (fun e mx => (e - mx) / mx) xs (cummaxAux m xs),
      d ≤ 0 := by
  induction xs with
  | nil =>
      intro m _ _
      simp [cummaxAux]
  | cons x rest ih =>
      intro m hxs hm d hd
      simp only [cummaxAux, List.zipWith_cons_cons, List.mem_cons] at hd
      rcases hd with h | h
      · subst h
        have h1 : x ≤ max m x := le_max_right _ _
        have h2 : 0 < max m x :=
          lt_max_of_lt_right (hxs x (List.mem_cons_self _ _))
        exact div_nonpos_iff.mpr (Or.inr ⟨sub_nonpos.mpr h1, h2.le⟩)
      · exact ih (max m x) (fun y hy => hxs y (List.mem_cons_of_mem _ hy))
          (lt_max_of_lt_right (hxs x (List.mem_cons_self _ _))) d h

theorem cummaxAux_of_chain (xs : List ℚ) (m : ℚ)
    (h : List.Chain (· ≤ ·) m xs) : cummaxAux m xs = xs := by
  induction xs generalizing m with
  | nil => rfl
  | cons x rest ih =>
      rcases List.chain_cons.mp h with ⟨h1, h2⟩
      rw [cummaxAux, max_eq_right h1, ih x h2]

theorem zipWith_self_map (f : ℚ → ℚ → ℚ) (l : List ℚ) :
    List.zipWith f l l = l.map (fun x => f x x) := by
  induction l with
  | nil => rfl
  | cons x rest ih => simp [ih]

/-- Claim C6: for a positive equity curve, each computed drawdown
`(equity - running_max) / running_max` is nonpositive, the maximum
drawdown is the minimum of these values (a member of and lower bound
for the drawdown series, hence itself nonpositive), a non-decreasing
curve yields exactly 0, and the report generator stores exactly this
fraction multiplied by 100 for its cumulative curve.  The metric is
stated on `max_drawdown`, modelled from the spec because the metrics
module of the repository is not present under src. -/
theorem claim_C6 (equity : List ℚ) (hpos : ∀ x ∈ equity, 0 < x) :
    (∀ d ∈ drawdownSeries equity, d ≤ 0) ∧
    max_drawdown equity ≤ 0 ∧
    (∀ d ∈ drawdownSeries equity, max_drawdown equity ≤ d) ∧
    (equity ≠ [] → max_drawdown equity ∈ drawdownSeries equity) ∧
    (List.Chain' (· ≤ ·) equity → max_drawdown equity = 0) ∧
    (∀ returns : List ℚ, reportMaxDrawdown returns =
      max_drawdown (cumprodOnePlus returns) * 100) := by
  have hdd : ∀ d ∈ drawdownSeries equity, d ≤ 0 := by
    cases equity with
    | nil => simp [drawdownSeries, cummax]
    | cons e rest =>
        intro d hd
        simp only [drawdownSeries, cummax, List.zipWith_cons_cons,
          List.mem_cons] at hd
        rcases hd with h | h
        · subst h
          simp
        · exact drawdown_aux_nonpos rest e
            (fun y hy => hpos y (List.mem_cons_of_mem _ hy))
            (hpos e (List.mem_cons_self _ _)) d h
  have hmem : equity ≠ [] → max_drawdown equity ∈ drawdownSeries equity := by
    intro h
    apply listMin_mem
    cases equity with
    | nil => exact absurd rfl h
    | cons e rest =>
        simp [drawdownSeries, cummax]
  refine ⟨hdd, ?_, fun d hd => listMin_le _ _ hd, hmem, ?_, fun returns => rfl⟩
  · by_cases h : equity = []
    · subst h
      simp [max_drawdown, drawdownSeries, cummax, listMin]
    · exact hdd _ (hmem h)
  · intro hchain
    apply listMin_of_all_zero
    intro x hx
    cases equity with
    | nil => simp [drawdownSeries, cummax] at hx
    | cons e rest =>
        have hcm : cummax (e :: rest) = e :: rest := by
          rw [cummax, cummaxAux_of_chain rest e hchain]
        rw [drawdownSeries, hcm, zipWith_self_map] at hx
        rcases List.mem_map.mp hx with ⟨y, hy, hxy⟩
        rw [← hxy]
        simp

theorem claim_C6_witness :
    (∀ x ∈ [(100 : ℚ), 105, 103, 110, 120], 0 < x) ∧
    ((∀ d ∈ drawdownSeries [(100 : ℚ), 105, 103, 110, 120], d ≤ 0) ∧
    max_drawdown [(100 : ℚ), 105, 103, 110, 120] ≤ 0 ∧
    (∀ d ∈ drawdownSeries [(100 : ℚ), 105, 103, 110, 120],
      max_drawdown [(100 : ℚ), 105, 103, 110, 120] ≤ d) ∧
    ([(100 : ℚ), 105, 103, 110, 120] ≠ [] →
      max_drawdown [(100 : ℚ), 105, 103, 110, 120] ∈
        drawdownSeries [(100 : ℚ), 105, 103, 110, 120]) ∧
    (List.Chain' (· ≤ ·) [(100 : ℚ), 105, 103, 110, 120] →
      max_drawdown [(100 : ℚ), 105, 103, 110, 120] = 0) ∧
    (∀ returns : List ℚ, reportMaxDrawdown returns =
      max_drawdown (cumprodOnePlus returns) * 100)) :=
  ⟨by decide, claim_C6 [100, 105, 103, 110, 120] (by decide)⟩

theorem sum_zipWith_decomp (xs ys : List ℚ) (a b a2 b2 : ℚ) :
    (List.zipWith (fun x yv =>
      (yv - (a2 * x + b2)) * (yv - (a2 * x + b2))) xs ys).sum =
    (List.zipWith (fun x yv =>
      (yv - (a * x + b)) * (yv - (a * x + b))) xs ys).sum
    + 2 * (a - a2) *
      (List.zipWith (fun x yv => x * (yv - (a * x + b))) xs ys).sum
    + 2 * (b - b2) *
      (List.zipWith (fun x yv => yv - (a * x + b)) xs ys).sum
    + (List.zipWith (fun x yv =>
        ((a - a2) * x + (b - b2)) * ((a - a2) * x + (b - b2))) xs ys).sum := by
  induction xs generalizing ys with
  | nil => simp
  | cons x xs ih =>
      cases ys with
      | nil => simp
      | cons y ys =>
          simp only [List.zipWith_cons_cons, List.sum_cons, ih ys]
          ring

theorem sum_sq_zipWith_nonneg (xs ys : List ℚ) (f : ℚ → ℚ → ℚ) :
    0 ≤ (List.zipWith (fun x y => f x y * f x y) xs ys).sum := by
  induction xs generalizing ys with
  | nil => simp
  | cons x xs ih =>
      cases ys with
      | nil => simp
      | cons y ys =>
          simp only [List.zipWith_cons_cons, List.sum_cons]
          have h1 := mul_self_nonneg (f x y)
          have h2 := ih ys
          linarith

theorem sum_res (xs ys : List ℚ) (h : xs.length = ys.length) (a b : ℚ) :
    (List.zipWith (fun x yv => yv - (a * x + b)) xs ys).sum =
      ys.sum - a * xs.sum - b * xs.length := by
  induction xs generalizing ys with
  | nil =>
      cases ys with
      | nil => simp
      | cons y ys => simp at h
  | cons x xs ih =>
      cases ys with
      | nil => simp at h
      | cons y ys =>
          simp only [List.length_cons] at h
          simp only [List.zipWith_cons_cons, List.sum_cons, List.length_cons]
          rw [ih ys (by omega)]
          push_cast
          ring

theorem sum_resx (xs ys : List ℚ) (h : xs.length = ys.length) (a b : ℚ) :
    (List.zipWith (fun x yv => x * (yv - (a * x + b))) xs ys).sum =
      (List.zipWith (fun x yv => x * yv) xs ys).sum
      - a * ((xs.map (fun x => x * x)).sum) - b * xs.sum := by
  induction xs generalizing ys with
  | nil =>
      cases ys with
      | nil => simp
      | cons y ys => simp at h
  | cons x xs ih =>
      cases ys with
      | nil => simp at h
      | cons y ys =>
          simp only [List.length_cons] at h
          simp only [List.zipWith_cons_cons, List.sum_cons, List.map_cons]
          rw [ih ys (by omega)]
          ring

theorem arangeQ_length (n : Nat) : (arangeQ n).length = n := by
  simp [arangeQ]

theorem sum_range_cast (n : Nat) :
    (arangeQ n).sum = (n : ℚ) * ((n : ℚ) - 1) / 2 := by
  induction n with
  | zero => simp [arangeQ]
  | succ n ih =>
      rw [arangeQ, List.range_succ, List.map_append, List.sum_append,
        ← arangeQ, ih]
      simp only [List.map_cons, List.map_nil, List.sum_cons, List.sum_nil]
      push_cast
      ring

theorem sum_range_sq_cast (n : Nat) :
    ((arangeQ n).map (fun x => x * x)).sum =
      (n : ℚ) * ((n : ℚ) - 1) * (2 * (n : ℚ) - 1) / 6 := by
  induction n with
  | zero => simp [arangeQ]
  | succ n ih =>
      rw [arangeQ, List.range_succ, List.map_append, List.map_append,
        List.sum_append, ← arangeQ, ih]
      simp only [List.map_cons, List.map_nil, List.sum_cons, List.sum_nil]
      push_cast
      ring

theorem normal_eq_solution (N SX SXX SXY SY : ℚ)
    (hD : N * SXX - SX * SX ≠ 0) :
    SY - ((N * SXY - SX * SY) / (N * SXX - SX * SX)) * SX
       - ((SY * SXX - SX * SXY) / (N * SXX - SX * SX)) * N = 0 ∧
    SXY - ((N * SXY - SX * SY) / (N * SXX - SX * SX)) * SXX
        - ((SY * SXX - SX * SXY) / (N * SXX - SX * SX)) * SX = 0 := by
  constructor
  · field_simp
    ring
  · field_simp
    ring

theorem olsFit_spec (y : List ℚ) :
    olsFit y = (((y.length : ℚ) *
        (List.zipWith (fun x yv => x * yv) (arangeQ y.length) y).sum -
        (arangeQ y.length).sum * y.sum) /
      ((y.length : ℚ) * ((arangeQ y.length).map (fun x => x * x)).sum -
        (arangeQ y.length).sum * (arangeQ y.length).sum),
      (y.sum * ((arangeQ y.length).map (fun x => x * x)).sum -
        (arangeQ y.length).sum *
        (List.zipWith (fun x yv => x * yv) (arangeQ y.length) y).sum) /
      ((y.length : ℚ) * ((arangeQ y.length).map (fun x => x * x)).sum -
        (arangeQ y.length).sum * (arangeQ y.length).sum)) := rfl

theorem detD_pos (n : Nat) (hn : 2 ≤ n) :
    0 < (n : ℚ) * ((arangeQ n).map (fun x => x * x)).sum -
      (arangeQ n).sum * (arangeQ n).sum := by
  rw [sum_range_cast, sum_range_sq_cast]
  have hn2 : (2 : ℚ) ≤ (n : ℚ) := by exact_mod_cast hn
  have key : (n : ℚ) * ((n : ℚ) * ((n : ℚ) - 1) * (2 * (n : ℚ) - 1) / 6) -
      (n : ℚ) * ((n : ℚ) - 1) / 2 * ((n : ℚ) * ((n : ℚ) - 1) / 2) =
      (n : ℚ) * (n : ℚ) * ((n : ℚ) - 1) * ((n : ℚ) + 1) / 12 := by
    ring
  rw [key]
  have h1 : (0 : ℚ) < (n : ℚ) * (n : ℚ) := by nlinarith
  have h2 : (0 : ℚ) < (n : ℚ) - 1 := by linarith
  have h3 : (0 : ℚ) < (n : ℚ) + 1 := by linarith
  positivity

theorem olsFit_minimizes (y : List ℚ) (hn : 2 ≤ y.length) (a2 b2 : ℚ) :
    sse y (olsFit y).1 (olsFit y).2 ≤ sse y a2 b2 := by
  have hxl : (arangeQ y.length).length = y.length := arangeQ_length _
  have hD := detD_pos y.length hn
  have hDne : (y.length : ℚ) *
      ((arangeQ y.length).map (fun x => x * x)).sum -
      (arangeQ y.length).sum * (arangeQ y.length).sum ≠ 0 := ne_of_gt hD
  obtain ⟨hne1, hne2⟩ := normal_eq_solution (y.length : ℚ)
    (arangeQ y.length).sum ((arangeQ y.length).map (fun x => x * x)).sum
    (List.zipWith (fun x yv => x * yv) (arangeQ y.length) y).sum
    y.sum hDne
  have hR0 : (List.zipWith (fun x yv => yv - ((olsFit y).1 * x + (olsFit y).2))
      (arangeQ y.length) y).sum = 0 := by
    rw [sum_res _ _ hxl, hxl, olsFit_spec]
    exact hne1
  have hR1 : (List.zipWith
      (fun x yv => x * (yv - ((olsFit y).1 * x + (olsFit y).2)))
      (arangeQ y.length) y).sum = 0 := by
    rw [sum_resx _ _ hxl, olsFit_spec]
    exact hne2
  have hdec := sum_zipWith_decomp (arangeQ y.length) y
    (olsFit y).1 (olsFit y).2 a2 b2
  have hQ := sum_sq_zipWith_nonneg (arangeQ y.length) y
    (fun x yv => ((olsFit y).1 - a2) * x + ((olsFit y).2 - b2))
  rw [sse, sse, hdec, hR0, hR1]
  simp only [mul_zero, add_zero]
  linarith

/-- Claim C8 counterexample: on an hourly-spaced input (timestamps in
day units 0 and 1/24) the predicted timestamps are spaced one full day
apart (the code hardcodes a daily frequency for the prediction index),
not at the input granularity of 1/24 day: the gap from the last
observation to the first prediction is 1, not 1/24. -/
theorem claim_C8_counterexample :
    predictLinear [((0 : ℚ), 10), (1/24, 11)] 1 2 = some [(25/24, 12)] ∧
    ¬ ((25 : ℚ)/24 - 1/24 = 1/24 - 0) := by
  constructor
  · rw [predictLinear, if_pos (by norm_num)]
    norm_num [olsFit, arangeQ, List.range_succ]
  · norm_num

/-- Claim C8 (amended): with at least `window` observations the
predictor returns exactly `horizon` values `a * x + b` for
`x = window .. window + horizon - 1`, where (a, b) is the unique
ordinary-least-squares degree-1 fit of the last `window` prices against
integer positions (proved by showing the fitted pair minimizes the sum
of squared residuals), on future timestamps spaced one day apart
starting one day after the last observed timestamp, regardless of the
input granularity; with fewer observations it returns `none` instead of
failing. -/
theorem claim_C8 (s : List (ℚ × ℚ)) (horizon window : Nat)
    (hw : 2 ≤ window) :
    (window ≤ s.length →
      ∃ preds, predictLinear s horizon window = some preds ∧
        preds.length = horizon ∧
        (∀ k, k < horizon → preds.get? k = some
          (((s.map Prod.fst).getLast?).getD 0 + ((k : ℚ) + 1),
           (olsFit ((s.map Prod.snd).drop (s.length - window))).1 *
             ((window : ℚ) + (k : ℚ)) +
           (olsFit ((s.map Prod.snd).drop (s.length - window))).2)) ∧
        (∀ a2 b2 : ℚ,
          sse ((s.map Prod.snd).drop (s.length - window))
            (olsFit ((s.map Prod.snd).drop (s.length - window))).1
            (olsFit ((s.map Prod.snd).drop (s.length - window))).2 ≤
          sse ((s.map Prod.snd).drop (s.length - window)) a2 b2)) ∧
    (s.length < window → predictLinear s horizon window = none) := by
  have hylen : window ≤ s.length →
      ((s.map Prod.snd).drop (s.length - window)).length = window := by
    intro h
    rw [List.length_drop, List.length_map]
    omega
  constructor
  · intro h
    refine ⟨(List.range horizon).map (fun k : Nat =>
      (((s.map Prod.fst).getLast?).getD 0 + ((k : ℚ) + 1),
       (olsFit ((s.map Prod.snd).drop (s.length - window))).1 *
         (((((s.map Prod.snd).drop (s.length - window)).length : ℚ)) +
           (k : ℚ)) +
       (olsFit ((s.map Prod.snd).drop (s.length - window))).2)),
      ?_, ?_, ?_, ?_⟩
    · rw [predictLinear, if_pos h]
    · simp
    · intro k hk
      rw [List.get?_map, List.get?_range hk, hylen h]
      rfl
    · intro a2 b2
      exact olsFit_minimizes _ (by rw [hylen h]; exact hw) a2 b2
  · intro h
    rw [predictLinear, if_neg (by omega)]

theorem claim_C8_witness :
    2 ≤ 2 ∧
    ((2 ≤ ([((0 : ℚ), 10), (1, 11), (2, 12)] : List (ℚ × ℚ)).length →
      ∃ preds, predictLinear [((0 : ℚ), 10), (1, 11), (2, 12)] 2 2 =
          some preds ∧
        preds.length = 2 ∧
        (∀ k, k < 2 → preds.get? k = some
          ((([((0 : ℚ), 10), (1, 11), (2, 12)].map
            Prod.fst).getLast?).getD 0 + ((k : ℚ) + 1),
           (olsFit (([((0 : ℚ), 10), (1, 11), (2, 12)].map
             Prod.snd).drop (3 - 2))).1 * ((2 : ℚ) + (k : ℚ)) +
           (olsFit (([((0 : ℚ), 10), (1, 11), (2, 12)].map
             Prod.snd).drop (3 - 2))).2)) ∧
        (∀ a2 b2 : ℚ,
          sse (([((0 : ℚ), 10), (1, 11), (2, 12)].map
              Prod.snd).drop (3 - 2))
            (olsFit (([((0 : ℚ), 10), (1, 11), (2, 12)].map
              Prod.snd).drop (3 - 2))).1
            (olsFit (([((0 : ℚ), 10), (1, 11), (2, 12)].map
              Prod.snd).drop (3 - 2))).2 ≤
          sse (([((0 : ℚ), 10), (1, 11), (2, 12)].map
            Prod.snd).drop (3 - 2)) a2 b2)) ∧
    (([((0 : ℚ), 10), (1, 11), (2, 12)] : List (ℚ × ℚ)).length < 2 →
      predictLinear [((0 : ℚ), 10), (1, 11), (2, 12)] 2 2 = none)) :=
  ⟨by decide, claim_C8 [((0 : ℚ), 10), (1, 11), (2, 12)] 2 2 (by decide)⟩

/-- One period of per-asset growth: multiply each accumulated factor by
one plus the corresponding return. -/
def growthStep (g r : List ℚ) : List ℚ :=
  List.zipWith (fun gi ri => gi * (1 + ri)) g r

/-- Cumulative per-asset growth factors over a list of return rows,
starting from factor 1 for each of `n` assets. -/
def cumGrowth (n : Nat) (rs : List (List ℚ)) : List ℚ :=
  rs.foldl growthStep (List.replicate n 1)

theorem sum_replicate_one (n : Nat) :
    (List.replicate n (1 : ℚ)).sum = n := by
  induction n with
  | zero => simp
  | succ n ih =>
      simp [List.replicate_succ, ih]
      ring

theorem zip_replicate_false {α : Type} (l : List α) :
    (List.replicate l.length false).zip l = l.map (fun r => (false, r)) := by
  induction l with
  | nil => rfl
  | cons x rest ih => simp [List.replicate_succ, List.zip_cons_cons, ih]

theorem allSome_length (l : List (Option ℚ)) (l2 : List ℚ)
    (h : allSome l = some l2) : l2.length = l.length := by
  induction l generalizing l2 with
  | nil =>
      simp only [allSome, Option.some.injEq] at h
      rw [← h]
      rfl
  | cons o rest ih =>
      cases o with
      | none => simp [allSome] at h
      | some q =>
          simp only [allSome] at h
          cases hr : allSome rest with
          | none => rw [hr] at h; simp at h
          | some l3 =>
              rw [hr] at h
              simp only [Option.map_some', Option.some.injEq] at h
              rw [← h]
              simp [ih l3 hr]

theorem alignedRows_wf (rows : List (Date × List (Option ℚ))) (n : Nat)
    (h : ∀ row ∈ rows, row.2.length = n) :
    ∀ p ∈ alignedRows rows, p.2.length = n := by
  induction rows with
  | nil => simp [alignedRows]
  | cons r rest ih =>
      intro p hp
      simp only [alignedRows, List.filterMap_cons] at hp
      cases hr : allSome r.2 with
      | none =>
          rw [hr] at hp
          exact ih (fun row hrow => h row (List.mem_cons_of_mem _ hrow)) p hp
      | some l =>
          rw [hr] at hp
          simp only [Option.map_some', List.mem_cons] at hp
          rcases hp with hp | hp
          · subst hp
            simp only
            rw [allSome_length _ _ hr]
            exact h r (List.mem_cons_self _ _)
          · exact ih (fun row hrow => h row (List.mem_cons_of_mem _ hrow)) p hp

theorem pctChange_wf (n : Nat) :
    ∀ l : List (Date × List ℚ), (∀ p ∈ l, p.2.length = n) →
      ∀ q ∈ pctChange l, q.2.length = n
  | [], _, q, hq => by simp [pctChange] at hq
  | [_], _, q, hq => by simp [pctChange] at hq
  | (d0, p0) :: (d1, p1) :: rest, h, q, hq => by
      simp only [pctChange, List.mem_cons] at hq
      rcases hq with hq | hq
      · subst hq
        simp only [List.length_zipWith]
        have h0 := h (d0, p0) (List.mem_cons_self _ _)
        have h1 := h (d1, p1) (List.mem_cons_of_mem _ (List.mem_cons_self _ _))
        simp only at h0 h1
        omega
      · exact pctChange_wf n ((d1, p1) :: rest)
          (fun p hp => h p (List.mem_cons_of_mem _ hp)) q hq

theorem growthStep_length (g r : List ℚ) (h : r.length = g.length) :
    (growthStep g r).length = g.length := by
  simp [growthStep, h]

theorem sum_growthStep (g r : List ℚ) (h : r.length = g.length) :
    (growthStep g r).sum =
      g.sum + (List.zipWith (fun a b => a * b) g r).sum := by
  induction g generalizing r with
  | nil => simp [growthStep]
  | cons gi g ih =>
      cases r with
      | nil => simp at h
      | cons ri r =>
          simp only [List.length_cons] at h
          simp only [growthStep, List.zipWith_cons_cons, List.sum_cons] at ih ⊢
          rw [ih r (by omega)]
          ring

theorem dot_scaled (g r : List ℚ) (S : ℚ) :
    dotProd (g.map (fun x => x / S)) r =
      (List.zipWith (fun a b => a * b) g r).sum / S := by
  induction g generalizing r with
  | nil => simp [dotProd]
  | cons gi g ih =>
      cases r with
      | nil => simp [dotProd]
      | cons ri r =>
          simp only [dotProd, List.map_cons, List.zipWith_cons_cons,
            List.sum_cons] at ih ⊢
          rw [ih r]
          ring

theorem zip_mul_scaled (g r : List ℚ) (S : ℚ) :
    List.zipWith (fun wi ri => wi * (1 + ri)) (g.map (fun x => x / S)) r =
      (growthStep g r).map (fun x => x / S) := by
  induction g generalizing r with
  | nil => simp [growthStep]
  | cons gi g ih =>
      cases r with
      | nil => simp [growthStep]
      | cons ri r =>
          simp only [growthStep, List.map_cons, List.zipWith_cons_cons] at ih ⊢
          rw [ih r]
          congr 1
          ring

theorem sum_map_div (l : List ℚ) (S : ℚ) :
    (l.map (fun x => x / S)).sum = l.sum / S := by
  induction l with
  | nil => simp
  | cons x rest ih =>
      simp only [List.map_cons, List.sum_cons, ih]
      ring

theorem map_div_div (l : List ℚ) (S Q : ℚ) (hS : S ≠ 0) :
    (l.map (fun x => x / S)).map (fun x => x / (Q / S)) =
      l.map (fun x => x / Q) := by
  induction l with
  | nil => rfl
  | cons x rest ih =>
      simp only [List.map_cons, ih, List.cons.injEq, and_true]
      by_cases hQ : Q = 0
      · simp [hQ]
      · field_simp

theorem one_add_dot_scaled (g r : List ℚ) (h : r.length = g.length)
    (hS : g.sum ≠ 0) :
    1 + dotProd (g.map (fun x => x / g.sum)) r =
      (growthStep g r).sum / g.sum := by
  rw [dot_scaled, sum_growthStep g r h]
  field_simp

theorem driftWeights_scaled (g r : List ℚ) (hS : g.sum ≠ 0)
    (hS2 : (growthStep g r).sum ≠ 0) :
    driftWeights (g.map (fun x => x / g.sum)) r =
      (growthStep g r).map (fun x => x / (growthStep g r).sum) := by
  rw [driftWeights]
  simp only [zip_mul_scaled g r g.sum, sum_map_div]
  rw [if_pos (div_ne_zero hS2 hS)]
  exact map_div_div _ _ _ hS

theorem weightsUsed_true_false (target : List ℚ) (r0 : List ℚ)
    (tail : List (Bool × List ℚ)) (i : Nat) :
    weightsUsed target target ((true, r0) :: tail) i =
      weightsUsed target target ((false, r0) :: tail) i := by
  cases i with
  | zero => simp [weightsUsed]
  | succ i => simp [weightsUsed]

theorem equityVal_true_false (target : List ℚ) (v : ℚ) (r0 : List ℚ)
    (tail : List (Bool × List ℚ)) (i : Nat) :
    equityVal target target v ((true, r0) :: tail) i =
      equityVal target target v ((false, r0) :: tail) i := by
  cases i with
  | zero => simp [equityVal]
  | succ i => simp [equityVal]

theorem none_mode_invariant (rs : List (List ℚ)) :
    ∀ (target G : List ℚ) (c : ℚ),
      (∀ r ∈ rs, r.length = G.length) →
      G.sum ≠ 0 →
      (∀ i, i < rs.length →
        1 + dotProd (weightsUsed target (G.map (fun x => x / G.sum))
          (rs.map (fun r => (false, r))) i) (rs.getD i []) ≠ 0) →
      ∀ i, i < rs.length →
        equityVal target (G.map (fun x => x / G.sum)) (c * G.sum)
          (rs.map (fun r => (false, r))) i =
        c * ((rs.take (i + 1)).foldl growthStep G).sum := by
  induction rs with
  | nil =>
      intro target G c _ _ _ i hi
      simp at hi
  | cons r rest ih =>
      intro target G c hlen hS hnz i hi
      have hrG : r.length = G.length := hlen r (List.mem_cons_self _ _)
      have hdot : 1 + dotProd (G.map (fun x => x / G.sum)) r =
          (growthStep G r).sum / G.sum := one_add_dot_scaled G r hrG hS
      have hnz0 : 1 + dotProd (G.map (fun x => x / G.sum)) r ≠ 0 := by
        have h := hnz 0 (by simp)
        simpa [weightsUsed] using h
      have hS2 : (growthStep G r).sum ≠ 0 := by
        intro h0
        apply hnz0
        rw [hdot, h0, zero_div]
      have hval : c * G.sum * ((growthStep G r).sum / G.sum) =
          c * (growthStep G r).sum := by
        field_simp
        ring
      cases i with
      | zero =>
          simp only [List.map_cons, equityVal, if_neg Bool.false_ne_true,
            List.take_succ_cons, List.take_zero, List.foldl_cons,
            List.foldl_nil]
          rw [hdot, hval]
      | succ i =>
          have hstep : equityVal target (G.map (fun x => x / G.sum))
              (c * G.sum) ((r :: rest).map (fun r => (false, r))) (i + 1) =
              equityVal target
                (driftWeights (G.map (fun x => x / G.sum)) r)
                (c * G.sum * (1 + dotProd (G.map (fun x => x / G.sum)) r))
                (rest.map (fun r => (false, r))) i := by
            simp [equityVal]
          rw [hstep, driftWeights_scaled G r hS hS2, hdot, hval]
          have hnz2 : ∀ j, j < rest.length →
              1 + dotProd (weightsUsed target
                ((growthStep G r).map (fun x => x / (growthStep G r).sum))
                (rest.map (fun r => (false, r))) j) (rest.getD j []) ≠ 0 := by
            intro j hj
            have h := hnz (j + 1) (by simpa using Nat.succ_lt_succ hj)
            have hw : weightsUsed target (G.map (fun x => x / G.sum))
                ((r :: rest).map (fun r => (false, r))) (j + 1) =
                weightsUsed target
                  (driftWeights (G.map (fun x => x / G.sum)) r)
                  (rest.map (fun r => (false, r))) j := by
              simp [weightsUsed]
            rw [hw, driftWeights_scaled G r hS hS2] at h
            exact h
          have hlen2 : ∀ r2 ∈ rest, r2.length = (growthStep G r).length := by
            intro r2 hr2
            rw [growthStep_length G r hrG]
            exact hlen r2 (List.mem_cons_of_mem _ hr2)
          have := ih target (growthStep G r) c hlen2 hS2 hnz2 i
            (by simpa using hi)
          rw [this]
          simp [List.take_succ_cons]

/-- Claim C9: in None mode, when every period has nonzero post-drift
weight sum `1 + dot(w, r)`, the equity at each period equals the
equal-weight buy-and-hold closed form: the initial value times `1/N`
times the sum over assets of the cumulative products of one plus the
per-asset returns up to that period. -/
theorem claim_C9 (t : PriceTable) (v0 : ℚ) (hc : 3 ≤ t.cols)
    (hwf : ∀ row ∈ t.rows, row.2.length = t.cols)
    (hrows : 2 ≤ (dropnaRows t.rows).length)
    (hnz : ∀ i, i < (computeReturns (dropnaRows t.rows)).length →
      1 + dotProd
        (weightsUsed (List.replicate t.cols ((1 : ℚ) / t.cols))
          (List.replicate t.cols ((1 : ℚ) / t.cols))
          ((true :: List.replicate
            ((computeReturns (dropnaRows t.rows)).length - 1) false).zip
            ((computeReturns (dropnaRows t.rows)).map Prod.snd)) i)
        (((computeReturns (dropnaRows t.rows)).map Prod.snd).getD i []) ≠ 0) :
    ∃ eq, simulateEqualWeight t "None" v0 = .ok eq ∧
      eq.length = (computeReturns (dropnaRows t.rows)).length ∧
      ∀ i, i < eq.length →
        eq.get? i = some (v0 * ((1 : ℚ) / t.cols) *
          (cumGrowth t.cols
            (((computeReturns (dropnaRows t.rows)).map Prod.snd).take
              (i + 1))).sum) := by
  have hncast : ((t.cols : ℚ)) ≠ 0 := by
    have : (3 : ℚ) ≤ (t.cols : ℚ) := by exact_mod_cast hc
    linarith
  have hlen : (computeReturns (dropnaRows t.rows)).length + 1 =
      (dropnaRows t.rows).length := by
    show (pctChange (alignedRows (dropnaRows t.rows))).length + 1 = _
    rw [pctChange_length, alignedRows_length, dropnaRows_idem]
    omega
  have hwf2 : ∀ q ∈ computeReturns (dropnaRows t.rows),
      q.2.length = t.cols := by
    apply pctChange_wf t.cols
    apply alignedRows_wf
    intro row hrow
    exact hwf row (List.mem_of_mem_filter hrow)
  cases hre : computeReturns (dropnaRows t.rows) with
  | nil =>
      rw [hre] at hlen
      simp at hlen
      omega
  | cons re0 retsTail =>
      rw [hre] at hlen hnz hwf2
      have hflags : rebFlags "None" ((re0 :: retsTail).map Prod.fst) =
          .ok (true :: List.replicate retsTail.length false) := by
        rw [rebFlags, if_pos rfl]
        simp [List.replicate_succ, setFirstTrue]
      have hps : (true :: List.replicate retsTail.length false).zip
          ((re0 :: retsTail).map Prod.snd) =
          (true, re0.2) ::
            (retsTail.map Prod.snd).map (fun r => (false, r)) := by
        rw [List.map_cons, List.zip_cons_cons,
          show retsTail.length = (retsTail.map Prod.snd).length by simp,
          zip_replicate_false]
      have hsim : simulateEqualWeight t "None" v0 =
          .ok (simLoop (List.replicate t.cols ((1 : ℚ) / t.cols)) v0
            (List.replicate t.cols ((1 : ℚ) / t.cols))
            ((true :: List.replicate retsTail.length false).zip
              ((re0 :: retsTail).map Prod.snd))) := by
        simp only [simulateEqualWeight,
          if_neg (show ¬ t.cols < 3 by omega), hre, hflags]
      have htarget : List.replicate t.cols ((1 : ℚ) / t.cols) =
          (List.replicate t.cols (1 : ℚ)).map
            (fun x => x / (List.replicate t.cols (1 : ℚ)).sum) := by
        rw [sum_replicate_one, List.map_replicate]
      have hv0 : v0 = (v0 / t.cols) * (List.replicate t.cols (1 : ℚ)).sum := by
        rw [sum_replicate_one]
        field_simp
      have hGS : (List.replicate t.cols (1 : ℚ)).sum ≠ 0 := by
        rw [sum_replicate_one]
        exact hncast
      have hlenG : ∀ r ∈ (re0 :: retsTail).map Prod.snd,
          r.length = (List.replicate t.cols (1 : ℚ)).length := by
        intro r hr
        rcases List.mem_map.mp hr with ⟨q, hq, hqr⟩
        rw [List.length_replicate, ← hqr]
        exact hwf2 q hq
      have hconv : ∀ i, weightsUsed
          (List.replicate t.cols ((1 : ℚ) / t.cols))
          (List.replicate t.cols ((1 : ℚ) / t.cols))
          ((true :: List.replicate retsTail.length false).zip
            ((re0 :: retsTail).map Prod.snd)) i =
          weightsUsed (List.replicate t.cols ((1 : ℚ) / t.cols))
            (List.replicate t.cols ((1 : ℚ) / t.cols))
            (((re0 :: retsTail).map Prod.snd).map (fun r => (false, r))) i := by
        intro i
        rw [hps, List.map_cons, List.map_cons]
        exact weightsUsed_true_false _ _ _ i
      have hnz2 : ∀ i, i < ((re0 :: retsTail).map Prod.snd).length →
          1 + dotProd (weightsUsed
            (List.replicate t.cols ((1 : ℚ) / t.cols))
            ((List.replicate t.cols (1 : ℚ)).map
              (fun x => x / (List.replicate t.cols (1 : ℚ)).sum))
            (((re0 :: retsTail).map Prod.snd).map (fun r => (false, r))) i)
            (((re0 :: retsTail).map Prod.snd).getD i []) ≠ 0 := by
        intro i hilen
        rw [← htarget, ← hconv i]
        have := hnz i (by simpa using hilen)
        simpa using this
      refine ⟨_, hsim, ?_, ?_⟩
      · rw [simLoop_length, hps]
        simp
      · intro i hi
        rw [simLoop_length, hps] at hi
        simp only [List.length_cons, List.length_map] at hi
        have hips : i < ((true :: List.replicate retsTail.length false).zip
            ((re0 :: retsTail).map Prod.snd)).length := by
          rw [hps]
          simp
          omega
        rw [simLoop_get? _ _ _ _ _ hips]
        have hconv2 : equityVal
            (List.replicate t.cols ((1 : ℚ) / t.cols))
            (List.replicate t.cols ((1 : ℚ) / t.cols)) v0
            ((true :: List.replicate retsTail.length false).zip
              ((re0 :: retsTail).map Prod.snd)) i =
            equityVal (List.replicate t.cols ((1 : ℚ) / t.cols))
              (List.replicate t.cols ((1 : ℚ) / t.cols)) v0
              (((re0 :: retsTail).map Prod.snd).map
                (fun r => (false, r))) i := by
          rw [hps, List.map_cons, List.map_cons]
          exact equityVal_true_false _ _ _ _ i
        rw [hconv2]
        have hinv := none_mode_invariant ((re0 :: retsTail).map Prod.snd)
          (List.replicate t.cols ((1 : ℚ) / t.cols))
          (List.replicate t.cols (1 : ℚ)) (v0 / t.cols)
          hlenG hGS hnz2 i (by simp; omega)
        rw [← htarget] at hinv
        rw [sum_replicate_one] at hinv
        rw [div_mul_cancel₀ v0 hncast] at hinv
        rw [hinv, cumGrowth]
        congr 1
        ring

theorem claim_C9_witness :
    3 ≤ witnessTable.cols ∧
    (∀ row ∈ witnessTable.rows, row.2.length = witnessTable.cols) ∧
    2 ≤ (dropnaRows witnessTable.rows).length ∧
    (∀ i, i < (computeReturns (dropnaRows witnessTable.rows)).length →
      1 + dotProd
        (weightsUsed
          (List.replicate witnessTable.cols ((1 : ℚ) / witnessTable.cols))
          (List.replicate witnessTable.cols ((1 : ℚ) / witnessTable.cols))
          ((true :: List.replicate
            ((computeReturns (dropnaRows witnessTable.rows)).length - 1)
            false).zip
            ((computeReturns (dropnaRows witnessTable.rows)).map Prod.snd)) i)
        (((computeReturns (dropnaRows witnessTable.rows)).map
          Prod.snd).getD i []) ≠ 0) ∧
    (∃ eq, simulateEqualWeight witnessTable "None" 1 = .ok eq ∧
      eq.length = (computeReturns (dropnaRows witnessTable.rows)).length ∧
      ∀ i, i < eq.length →
        eq.get? i = some (1 * ((1 : ℚ) / witnessTable.cols) *
          (cumGrowth witnessTable.cols
            (((computeReturns (dropnaRows witnessTable.rows)).map
              Prod.snd).take (i + 1))).sum)) := by
  have hnzW : ∀ i, i < (computeReturns (dropnaRows witnessTable.rows)).length →
      1 + dotProd
        (weightsUsed
          (List.replicate witnessTable.cols ((1 : ℚ) / witnessTable.cols))
          (List.replicate witnessTable.cols ((1 : ℚ) / witnessTable.cols))
          ((true :: List.replicate
            ((computeReturns (dropnaRows witnessTable.rows)).length - 1)
            false).zip
            ((computeReturns (dropnaRows witnessTable.rows)).map Prod.snd)) i)
        (((computeReturns (dropnaRows witnessTable.rows)).map
          Prod.snd).getD i []) ≠ 0 := by
    have hre : computeReturns (dropnaRows witnessTable.rows) =
        [ (⟨1, 1⟩, [1/100, 1/50, 1/20]), (⟨2, 1⟩, [1/101, -2/51, 1/21]) ] := by
      norm_num [computeReturns, dropnaRows, alignedRows, allSome,
        witnessTable, pctChange]
    intro i hi
    rw [hre] at hi ⊢
    simp only [List.length_cons, List.length_nil] at hi
    interval_cases i <;>
      norm_num [weightsUsed, driftWeights, dotProd, witnessTable,
        List.replicate, List.zip_cons_cons, List.zipWith]
  exact ⟨by decide, by decide, by decide, hnzW,
    claim_C9 witnessTable 1 (by decide) (by decide) (by decide) hnzW⟩

end FinDash
